import Mathlib

/-!
Verification of the nx piece-verification engine and integrity store.

The definitions below are a shallow embedding of `src/nx/nx.py` and
`src/nx/store.py`:

* Python `Path.parts` is modelled as `List String`; an on-disk path is the
  list of its components.
* Byte strings are `List Nat` (one `Nat` per byte).
* The filesystem is a structure of pure functions (`FS`): existence check,
  regular-file check, and file contents.  `open`/`seek`/`read` on a file
  positioned at `start` reading `n` bytes returns `contents[start : start+n]`,
  which is `(contents.drop start).take n`.
* The SHA-1 digest and the JSON canonical serialisation are opaque injective
  transformations from the core's point of view; they are modelled as
  function parameters (`hash`), so every theorem below holds for the real
  SHA-1 instance in particular.
* Python machine integers here are arbitrary-precision (`int`), so `Nat`
  (and `Int` where values go negative) is the faithful model; no wrap-around
  is involved.
* Fallible code (`raise ValueError`) is modelled with `Except NxError`.
-/

namespace Nx

/-- Errors raised by the embedded code (all `ValueError` in the source,
distinguished here by their raise site's meaning). -/
inductive NxError where
  | pathTooShort
  | kindMismatch
  | duplicateEntry
  | invalidMagic
  | unknownEntryType
  | checksumMismatch
deriving DecidableEq

/-- Model of `File` from nx.py: offset and size in the concatenated virtual stream,
plus the declared relative path (its components). -/
structure File where
  offset : Nat
  size : Nat
  path : List String
deriving DecidableEq

/-- Model of `Torrent.get_piece_refs` from nx.py: for each file, skip when the piece
span `[piece_offset, piece_offset+piece_sz)` lies outside the file span,
otherwise emit the file with the overlap converted to file-local
coordinates.  The emitted pair `(bytes_start, bytes_end)` models the Python
`range(bytes_start, bytes_end)`. -/
def get_piece_refs (files : List File) (piece_offset piece_sz : Nat) :
    List (File × Nat × Nat) :=
  files.filterMap (fun file =>
    if file.offset + file.size ≤ piece_offset ∨
        piece_offset + piece_sz ≤ file.offset then
      none
    else
      some (file,
        max piece_offset file.offset - file.offset,
        min (piece_offset + piece_sz) (file.offset + file.size) - file.offset))

/-- Length of an emitted file-local range (`len(range(bytes_start, bytes_end))`). -/
def ref_len (x : File × Nat × Nat) : Nat := x.2.2 - x.2.1

/-- Total size of a file list: sum of the declared sizes. -/
def sizes_sum (files : List File) : Nat := (files.map (fun f => f.size)).sum

/-- The data-model invariant of the spec: files are contiguous (no gaps, no
overlap) starting at stream position `base`, in declared order. -/
def contiguous_from : Nat → List File → Prop
  | _, [] => True
  | base, f :: rest => f.offset = base ∧ contiguous_from (base + f.size) rest

lemma get_piece_refs_cons (f : File) (files : List File) (po ps : Nat) :
    get_piece_refs (f :: files) po ps =
      (if f.offset + f.size ≤ po ∨ po + ps ≤ f.offset then []
       else [(f, max po f.offset - f.offset,
              min (po + ps) (f.offset + f.size) - f.offset)]) ++
      get_piece_refs files po ps := by
  by_cases h : f.offset + f.size ≤ po ∨ po + ps ≤ f.offset
  · simp [get_piece_refs, List.filterMap_cons, h]
  · simp [get_piece_refs, List.filterMap_cons, h]

lemma refs_len_sum (po ps : Nat) :
    ∀ (base : Nat) (files : List File), contiguous_from base files →
      ((get_piece_refs files po ps).map ref_len).sum =
        min (po + ps) (base + sizes_sum files) - max po base := by
  intro base files
  induction files generalizing base with
  | nil =>
    intro _
    simp [get_piece_refs, sizes_sum]
  | cons f rest ih =>
    intro hc
    obtain ⟨hoff, hrest⟩ := hc
    have hsum := ih (base + f.size) hrest
    rw [get_piece_refs_cons]
    rw [List.map_append, List.sum_append, hsum]
    subst hoff
    have hone :
        ((if f.offset + f.size ≤ po ∨ po + ps ≤ f.offset then []
          else [(f, max po f.offset - f.offset,
                 min (po + ps) (f.offset + f.size) - f.offset)]).map ref_len).sum
          = min (po + ps) (f.offset + f.size) - max po f.offset := by
      split
      · simp only [List.map_nil, List.sum_nil]
        omega
      · simp only [List.map_cons, List.map_nil, List.sum_cons, List.sum_nil,
          ref_len]
        omega
    rw [hone]
    simp only [sizes_sum, List.map_cons, List.sum_cons]
    omega

/-- C2: for every contiguous file layout starting at stream offset 0 and
every piece whose byte span lies inside the total declared size, the ranges
emitted by `get_piece_refs`, in emission order, have lengths summing to
exactly the piece size (including a final short piece). -/
theorem c2_piece_refs_cover (files : List File) (piece_offset piece_sz : Nat)
    (hc : contiguous_from 0 files)
    (hin : piece_offset + piece_sz ≤ sizes_sum files) :
    ((get_piece_refs files piece_offset piece_sz).map ref_len).sum = piece_sz := by
  have h := refs_len_sum piece_offset piece_sz 0 files hc
  rw [h]
  omega

/-- Witness for C2 on a concrete 3-file layout with a short final piece:
files of sizes 5, 3, 2 and a final piece `[8, 10)` of size 2. -/
theorem c2_piece_refs_cover_witness :
    contiguous_from 0
        [⟨0, 5, ["a"]⟩, ⟨5, 3, ["b"]⟩, ⟨8, 2, ["c"]⟩] ∧
      8 + 2 ≤ sizes_sum [⟨0, 5, ["a"]⟩, ⟨5, 3, ["b"]⟩, ⟨8, 2, ["c"]⟩] ∧
      ((get_piece_refs [⟨0, 5, ["a"]⟩, ⟨5, 3, ["b"]⟩, ⟨8, 2, ["c"]⟩] 8 2).map
          ref_len).sum = 2 :=
  ⟨by simp [contiguous_from], by decide,
    c2_piece_refs_cover [⟨0, 5, ["a"]⟩, ⟨5, 3, ["b"]⟩, ⟨8, 2, ["c"]⟩] 8 2
      (by simp [contiguous_from]) (by decide)⟩

/-- The spec's wording of the Piece Ranger (for claim C6): emit a record
exactly for the files whose span has NON-EMPTY overlap with the piece span,
in declaration order, with the stated file-local range. -/
def ranges_for_piece_spec (files : List File) (piece_offset piece_sz : Nat) :
    List (File × Nat × Nat) :=
  (files.filter (fun f =>
      max piece_offset f.offset <
        min (piece_offset + piece_sz) (f.offset + f.size))).map
    (fun f => (f,
      max piece_offset f.offset - f.offset,
      min (piece_offset + piece_sz) (f.offset + f.size) - f.offset))

/-- The condition the code actually tests (for the amended C6): the piece
interval starts before the file ends and the file starts before the piece
ends.  For a positive-size file this is exactly non-empty overlap; a
zero-size file strictly inside the piece span also passes. -/
def ranges_for_piece_amended (files : List File) (piece_offset piece_sz : Nat) :
    List (File × Nat × Nat) :=
  (files.filter (fun f =>
      decide (piece_offset < f.offset + f.size) &&
        decide (f.offset < piece_offset + piece_sz))).map
    (fun f => (f,
      max piece_offset f.offset - f.offset,
      min (piece_offset + piece_sz) (f.offset + f.size) - f.offset))

/-- C6 counterexample: a zero-size file at offset 5 inside the piece span
`[0, 10)` has EMPTY overlap with the piece, yet `get_piece_refs` emits a
record for it (with an empty local range), so the emitted records are not
exactly the files with non-empty overlap. -/
theorem c6_counterexample :
    get_piece_refs [⟨5, 0, ["z"]⟩] 0 10 ≠
      ranges_for_piece_spec [⟨5, 0, ["z"]⟩] 0 10 := by
  decide

/-- C6 (amended): `get_piece_refs` emits a record exactly for the files with
`pieceStart < fileEnd` and `fileStart < pieceEnd` — which coincides with
non-empty overlap whenever the piece size and every file size are positive —
in declaration order, each with local range
`(max(pieceStart,fileStart) - fileStart, min(pieceEnd,fileEnd) - fileStart)`. -/
theorem c6_piece_refs_amended (files : List File) (piece_offset piece_sz : Nat) :
    get_piece_refs files piece_offset piece_sz =
        ranges_for_piece_amended files piece_offset piece_sz ∧
      (0 < piece_sz → (∀ f ∈ files, 0 < f.size) →
        get_piece_refs files piece_offset piece_sz =
          ranges_for_piece_spec files piece_offset piece_sz) := by
  constructor
  · induction files with
    | nil => rfl
    | cons f rest ih =>
      rw [get_piece_refs_cons]
      simp only [ranges_for_piece_amended, List.filter_cons]
      by_cases h : f.offset + f.size ≤ piece_offset ∨
          piece_offset + piece_sz ≤ f.offset
      · rw [if_pos h]
        have hcond : (decide (piece_offset < f.offset + f.size) &&
            decide (f.offset < piece_offset + piece_sz)) = false := by
          rcases h with h | h
          · have hn : ¬ (piece_offset < f.offset + f.size) := by omega
            simp [hn]
          · have hn : ¬ (f.offset < piece_offset + piece_sz) := by omega
            simp [hn]
        rw [hcond]
        simpa [ranges_for_piece_amended] using ih
      · rw [if_neg h]
        push_neg at h
        obtain ⟨h1, h2⟩ := h
        have hcond : (decide (piece_offset < f.offset + f.size) &&
            decide (f.offset < piece_offset + piece_sz)) = true := by
          simp [h1, h2]
        rw [hcond]
        simp only [List.map_cons, List.singleton_append]
        rw [ih]
        rfl
  · intro hps hpos
    induction files with
    | nil => rfl
    | cons f rest ih =>
      have hf : 0 < f.size := hpos f (by simp)
      have hrest : ∀ g ∈ rest, 0 < g.size := fun g hg => hpos g (by simp [hg])
      rw [get_piece_refs_cons]
      simp only [ranges_for_piece_spec, List.filter_cons]
      by_cases h : f.offset + f.size ≤ piece_offset ∨
          piece_offset + piece_sz ≤ f.offset
      · rw [if_pos h]
        have hn : ¬ (max piece_offset f.offset <
            min (piece_offset + piece_sz) (f.offset + f.size)) := by
          rcases h with h | h <;> omega
        simp only [decide_eq_false hn]
        simpa [ranges_for_piece_spec] using ih hrest
      · rw [if_neg h]
        push_neg at h
        obtain ⟨h1, h2⟩ := h
        have hlt : max piece_offset f.offset <
            min (piece_offset + piece_sz) (f.offset + f.size) := by omega
        simp only [decide_eq_true hlt]
        simp only [List.map_cons, List.singleton_append]
        rw [ih hrest]
        rfl

/-- Witness for C6 (amended) at a concrete layout with positive file sizes:
both characterisations agree with `get_piece_refs`. -/
theorem c6_piece_refs_amended_witness :
    get_piece_refs [⟨0, 5, ["a"]⟩, ⟨5, 3, ["b"]⟩] 4 3 =
        ranges_for_piece_amended [⟨0, 5, ["a"]⟩, ⟨5, 3, ["b"]⟩] 4 3 ∧
      get_piece_refs [⟨0, 5, ["a"]⟩, ⟨5, 3, ["b"]⟩] 4 3 =
        ranges_for_piece_spec [⟨0, 5, ["a"]⟩, ⟨5, 3, ["b"]⟩] 4 3 :=
  ⟨(c6_piece_refs_amended [⟨0, 5, ["a"]⟩, ⟨5, 3, ["b"]⟩] 4 3).1,
    (c6_piece_refs_amended [⟨0, 5, ["a"]⟩, ⟨5, 3, ["b"]⟩] 4 3).2
      (by decide) (by decide)⟩

/-- The strip-components step shared by `_match_files` and the
`verify_pieces` piece loop (nx.py): with a truthy `strip_components`, a path
with at most `strip_components` parts raises `ValueError`, otherwise the
leading components are dropped. -/
def strip_path (parts : List String) (strip_components : Nat) :
    Except NxError (List String) :=
  if strip_components = 0 then .ok parts
  else if parts.length ≤ strip_components then .error .pathTooShort
  else .ok (parts.drop strip_components)

/-- Padding-file test from nx.py: `file_path.parts and
file_path.parts[0] == ".____padding_file"`. -/
def is_padding (parts : List String) : Bool :=
  match parts with
  | [] => false
  | p :: _ => p = ".____padding_file"

/-- The local filesystem, as pure functions: whether a path exists, whether
it is a regular file, and its byte contents.  A path is the list of its
components (`save_path ++ stripped file path`). -/
structure FS where
  fexists : List String → Bool
  is_file : List String → Bool
  contents : List String → List Nat

/-- Model of `MatchFilesResult` from nx.py.  The source accumulates Python sets; only
emptiness of `missing`/`error` is observed (via `ok`), so the sets are
modelled as lists accumulated in scan order. -/
structure MatchFilesResult where
  found : List (List String)
  missing : List (List String)
  error : List (List String)
deriving DecidableEq

/-- Model of `MatchFilesResult.ok`: no missing and no type-error files. -/
def MatchFilesResult.ok (m : MatchFilesResult) : Bool :=
  m.missing.isEmpty && m.error.isEmpty

/-- Loop body of `_match_files`: strip (hard error on too-short paths), skip
padding files, then classify the resolved path as found / missing / error. -/
def match_files_go (fs : FS) (save_path : List String) (strip_components : Nat) :
    List File → MatchFilesResult → Except NxError MatchFilesResult
  | [], acc => .ok acc
  | f :: rest, acc =>
    match strip_path f.path strip_components with
    | .error e => .error e
    | .ok sp =>
      if is_padding sp then match_files_go fs save_path strip_components rest acc
      else
        if fs.fexists (save_path ++ sp) = false then
          match_files_go fs save_path strip_components rest
            { acc with missing := acc.missing ++ [f.path] }
        else if fs.is_file (save_path ++ sp) then
          match_files_go fs save_path strip_components rest
            { acc with found := acc.found ++ [f.path] }
        else
          match_files_go fs save_path strip_components rest
            { acc with error := acc.error ++ [f.path] }

/-- Model of `_match_files` from nx.py. -/
def match_files (fs : FS) (files : List File) (save_path : List String)
    (strip_components : Nat) : Except NxError MatchFilesResult :=
  match_files_go fs save_path strip_components files ⟨[], [], []⟩

/-- Model of `_max_open_files` from nx.py. -/
def max_open_files : Nat := 32

/-- One cached handle of `DefaultFileReader`: the dicts `refs`, `sizes` and
`usage` always hold exactly the same keys (entries are inserted and deleted
in all three together), so they are modelled as a single insertion-ordered
association list.  `usage` can go negative (`usage.get(key, 0) - 1`), hence
`Int`. -/
structure CacheEntry where
  key : List String
  size : Nat
  usage : Int
deriving DecidableEq

/-- Dictionary lookup on the insertion-ordered entry list. -/
def lookup_entry (k : List String) : List CacheEntry → Option CacheEntry
  | [] => none
  | e :: rest => if e.key = k then some e else lookup_entry k rest

/-- Model of `del refs[key]; del sizes[key]; del usage[key]`: remove the binding for
`k` (keys are unique in a dict, so at most one entry matches). -/
def remove_entry (k : List String) : List CacheEntry → List CacheEntry
  | [] => []
  | e :: rest =>
    if e.key = k then remove_entry k rest else e :: remove_entry k rest

/-- Model of `usage[key] = usage.get(key, 0) - 1` for a present key: decrement the
single binding. -/
def dec_usage (k : List String) : List CacheEntry → List CacheEntry
  | [] => []
  | e :: rest =>
    if e.key = k then { e with usage := e.usage - 1 } :: rest
    else e :: dec_usage k rest

/-- The scan loop of `DefaultFileReader.cleanup`: iterate over a snapshot of
the keys with their index, stop at index 4 (`if idx > 3: break`), skip busy
entries (`usage > 0`), close and delete idle ones. -/
def cleanup_go (st : List CacheEntry) (idx : Nat) :
    List (List String) → List CacheEntry :=
  fun ks =>
    match ks with
    | [] => st
    | k :: rest =>
      if 3 < idx then st
      else
        match lookup_entry k st with
        | none => cleanup_go st (idx + 1) rest
        | some e =>
          if 0 < e.usage then cleanup_go st (idx + 1) rest
          else cleanup_go (remove_entry k st) (idx + 1) rest

/-- Model of `DefaultFileReader.cleanup` from nx.py: a no-op unless strictly more
than `_max_open_files` handles are cached. -/
def cleanup (st : List CacheEntry) : List CacheEntry :=
  if st.length ≤ max_open_files then st
  else cleanup_go st 0 (st.map (fun e => e.key))

/-- The bytes produced by `fh.seek(r.start); fh.read(r.stop - r.start)` on a
file with the given contents: `contents[start : start + (stop - start)]`. -/
def read_bytes (fs : FS) (p : List String) (rstart rstop : Nat) : List Nat :=
  ((fs.contents p).drop rstart).take (rstop - rstart)

/-- Model of `DefaultFileReader.read` from nx.py: on a cache miss run `cleanup`, open
the file (recording its size, initial usage 1 — the key is absent from all
three dicts on a miss, so `usage.get(key, 0) + 1 = 1`), then decrement the
usage count when the requested range reaches or passes the recorded size,
and return the bytes the underlying file yields — with no length check. -/
def reader_read (fs : FS) (st : List CacheEntry) (p : List String)
    (rstart rstop : Nat) : List Nat × List CacheEntry :=
  let st1 :=
    match lookup_entry p st with
    | some _ => st
    | none => cleanup st ++ [⟨p, (fs.contents p).length, 1⟩]
  let sz :=
    match lookup_entry p st1 with
    | some e => e.size
    | none => 0
  let st2 := if sz ≤ rstop then dec_usage p st1 else st1
  (read_bytes fs p rstart rstop, st2)

/-- Concrete filesystem for the C3 counterexample: the file `a` holds two
bytes. -/
def c3fs : FS :=
  ⟨fun _ => true, fun _ => true, fun p => if p = ["a"] then [7, 7] else []⟩

/-- C3 counterexample: reading the range `[0, 5)` from a 2-byte file returns
normally with 2 bytes — the reader has no failure path at all, so a short
read is not surfaced as a `ShortRead` error and the returned buffer's length
is not `end - start`. -/
theorem c3_counterexample :
    (reader_read c3fs [] ["a"] 0 5).1 = [7, 7] ∧
      (reader_read c3fs [] ["a"] 0 5).1.length ≠ 5 - 0 := by
  decide

/-- C3 (amended): `DefaultFileReader.read` never fails; it returns exactly
`min(end, fileSize) - start` bytes, which may be fewer than requested.  A
short read is silently folded into the piece buffer (surfacing, if at all,
as a hash mismatch counted as a bad piece), not raised as an error. -/
theorem c3_read_length (fs : FS) (st : List CacheEntry) (p : List String)
    (rstart rstop : Nat) (h : rstart ≤ rstop) :
    (reader_read fs st p rstart rstop).1.length =
      min rstop (fs.contents p).length - rstart := by
  simp only [reader_read, read_bytes, List.length_take, List.length_drop]
  omega

/-- Witness for C3 (amended): on the 2-byte file, requesting `[0, 5)` yields
`min 5 2 - 0 = 2` bytes. -/
theorem c3_read_length_witness :
    (reader_read c3fs [] ["a"] 0 5).1.length =
      min 5 (c3fs.contents ["a"]).length - 0 :=
  c3_read_length c3fs [] ["a"] 0 5 (by decide)

lemma lookup_entry_append_cons (u v : List CacheEntry) (e : CacheEntry)
    (hu : e.key ∉ u.map (fun x => x.key)) :
    lookup_entry e.key (u ++ e :: v) = some e := by
  induction u with
  | nil => simp [lookup_entry]
  | cons a u ih =>
    simp only [List.map_cons, List.mem_cons] at hu
    push_neg at hu
    simp only [List.cons_append, lookup_entry]
    rw [if_neg (fun hk => hu.1 hk.symm)]
    exact ih hu.2

lemma remove_entry_of_not_mem (k : List String) (l : List CacheEntry)
    (h : k ∉ l.map (fun x => x.key)) : remove_entry k l = l := by
  induction l with
  | nil => rfl
  | cons a l ih =>
    simp only [List.map_cons, List.mem_cons] at h
    push_neg at h
    simp only [remove_entry]
    rw [if_neg (fun hk => h.1 hk.symm)]
    rw [ih h.2]

lemma remove_entry_append_cons (u v : List CacheEntry) (e : CacheEntry)
    (hnd : ((u ++ e :: v).map (fun x => x.key)).Nodup) :
    remove_entry e.key (u ++ e :: v) = u ++ v := by
  induction u with
  | nil =>
    simp only [List.nil_append, List.map_cons, List.nodup_cons] at hnd
    simp only [List.nil_append, remove_entry, if_pos rfl]
    exact remove_entry_of_not_mem e.key v hnd.1
  | cons a u ih =>
    simp only [List.cons_append, List.map_cons, List.nodup_cons] at hnd
    have hne : a.key ≠ e.key := by
      intro hk
      exact hnd.1 (hk ▸ (by simp : e.key ∈ ((u ++ e :: v).map (fun x => x.key))))
    simp only [List.cons_append, remove_entry, if_neg hne]
    show a :: remove_entry e.key (u ++ e :: v) = a :: (u ++ v)
    rw [ih hnd.2]

lemma cleanup_go_spec :
    ∀ (v u : List CacheEntry) (idx : Nat),
      (((u ++ v).map (fun x => x.key)).Nodup) →
      cleanup_go (u ++ v) idx (v.map (fun e => e.key)) =
        u ++ ((v.take (4 - idx)).filter (fun e => 0 < e.usage)) ++
          v.drop (4 - idx) := by
  intro v
  induction v with
  | nil => intro u idx _; simp [cleanup_go]
  | cons e v ih =>
    intro u idx hnd
    by_cases hidx : 3 < idx
    · have h4 : 4 - idx = 0 := by omega
      simp [cleanup_go, hidx, h4]
    · have hnd' : (u.map (fun x => x.key) ++
          e.key :: v.map (fun x => x.key)).Nodup := by
        simpa using hnd
      rw [List.nodup_append] at hnd'
      have hu : e.key ∉ u.map (fun x => x.key) := fun hmem =>
        hnd'.2.2 hmem (by simp)
      have hlk : lookup_entry e.key (u ++ e :: v) = some e :=
        lookup_entry_append_cons u v e hu
      have h41 : 4 - idx = (4 - (idx + 1)) + 1 := by omega
      simp only [List.map_cons, cleanup_go, if_neg hidx, hlk]
      by_cases hbusy : 0 < e.usage
      · rw [if_pos hbusy]
        have hnd2 : (((u ++ [e]) ++ v).map (fun x => x.key)).Nodup := by
          simpa using hnd
        have := ih (u ++ [e]) (idx + 1) hnd2
        rw [List.append_assoc u [e] v] at this
        simp only [List.singleton_append] at this
        rw [this, h41, List.take_succ_cons, List.drop_succ_cons]
        rw [List.filter_cons_of_pos (by simpa using hbusy)]
        simp
      · rw [if_neg hbusy]
        rw [remove_entry_append_cons u v e hnd]
        have hsub : ((u ++ v).map (fun x => x.key)).Sublist
            (((u ++ e :: v)).map (fun x => x.key)) := by
          simp only [List.map_append, List.map_cons]
          exact List.Sublist.append_left (List.sublist_cons_self _ _) _
        have hnd2 : ((u ++ v).map (fun x => x.key)).Nodup :=
          hnd.sublist hsub
        rw [ih u (idx + 1) hnd2, h41, List.take_succ_cons, List.drop_succ_cons]
        rw [List.filter_cons_of_neg (by simpa using hbusy)]

/-- C8: `cleanup` is a no-op unless strictly more than 32 handles are
cached; when it runs (under the dict invariant of pairwise-distinct keys)
it examines only the first 4 cached entries in insertion order, keeps the
examined entries whose reference count is positive, closes and removes
exactly the examined entries whose reference count is not positive —
possibly none — and leaves all later entries untouched. -/
theorem c8_cleanup (st : List CacheEntry) :
    (st.length ≤ 32 → cleanup st = st) ∧
      (32 < st.length → ((st.map (fun e => e.key)).Nodup) →
        cleanup st =
          (st.take 4).filter (fun e => 0 < e.usage) ++ st.drop 4) := by
  constructor
  · intro h
    simp [cleanup, max_open_files, h]
  · intro h hnd
    have hspec := cleanup_go_spec st [] 0 hnd
    simp only [List.nil_append] at hspec
    have hgt : ¬ st.length ≤ max_open_files := by
      simp only [max_open_files]
      omega
    rw [cleanup, if_neg hgt, hspec]

/-- A concrete over-budget cache for the C8 witness: 33 distinct keys,
entries at even positions busy (usage 1), odd positions idle (usage 0). -/
def c8st : List CacheEntry :=
  (List.range 33).map
    (fun i => ⟨List.replicate i "k", 100, if i % 2 = 0 then 1 else 0⟩)

/-- Witness for C8: on the 33-entry cache, `cleanup` drops exactly the idle
entries among the first 4 and keeps the rest. -/
theorem c8_cleanup_witness :
    cleanup c8st = (c8st.take 4).filter (fun e => 0 < e.usage) ++ c8st.drop 4 :=
  (c8_cleanup c8st).2 (by decide) (by decide)

/-- Model of `MAGIC` from store.py: `sha1("NXFS24757")` in uppercase hex — the
digest recorded in the source's own comment. -/
def MAGIC : String := "AF42A720D65A556EB5CBE7DA5F0E0098379708C8"

/-- Model of `NxInternal` from store.py. -/
structure NxInternal where
  strip_components : Nat
  ready : Bool
  last_verified : Option Int
deriving DecidableEq

/-- A store entry carrying the fields the `Entry` protocol and
`TorrentEntry` expose: the kind tag (`type`), the identity (`id`), the
opaque base64 torrent blob, and the `nx["@internal"]` metadata.  The kind
tag is a free string, as in the duck-typed protocol. -/
structure StoreEntry where
  type : String
  id : String
  torrent : List Nat
  internal : NxInternal
deriving DecidableEq

/-- The sort relation used by `Store.checksum` (`sorted(entries, key=
lambda e: e.id)`). -/
def entry_le (a b : StoreEntry) : Prop := a.id ≤ b.id

instance : DecidableRel entry_le := fun a b =>
  inferInstanceAs (Decidable (a.id ≤ b.id))

instance : IsTotal StoreEntry entry_le :=
  ⟨fun a b => le_total a.id b.id⟩

instance : IsTrans StoreEntry entry_le :=
  ⟨fun _ _ _ h1 h2 => le_trans h1 h2⟩

/-- Model of `sorted(self.entries, key=lambda e: e.id)` from `Store.checksum`. -/
def sort_entries (l : List StoreEntry) : List StoreEntry :=
  List.insertionSort entry_le l

/-- Model of `FileStore` from store.py: the entry list plus the persisted magic
marker. -/
structure FileStore where
  entries : List StoreEntry
  magic : String
deriving DecidableEq

/-- Model of `Store.checksum`: SHA-1 over the canonical JSON serialisation of the
entries sorted by id.  `hash` abstracts the (injective) composition of
`json.dumps(..., sort_keys=True)` and `sha1(...).hexdigest().upper()`; the
theorems below hold for every `hash`, in particular the real one. -/
def checksum (hash : List StoreEntry → String) (s : FileStore) : String :=
  hash (sort_entries s.entries)

/-- Model of `Store.upsert` from store.py, modelled as the state transformer the
Python method induces: scan for the first entry with the same id; on a kind
mismatch raise (`some kindMismatch`) with the list untouched (the raise
happens before any assignment); on a match replace in place; if no entry
matches, append. -/
def upsert_run : List StoreEntry → StoreEntry → Option NxError × List StoreEntry
  | [], e => (none, [e])
  | x :: rest, e =>
    if x.id = e.id then
      if x.type = e.type then (none, e :: rest)
      else (some NxError.kindMismatch, x :: rest)
    else
      let out := upsert_run rest e
      (out.1, x :: out.2)

/-- The persisted document `flush_immediately` writes: the `FileStore`
fields (`asdict`) plus the freshly computed checksum.  JSON text plus
base64 is a lossless encoding of this structure, so the document (not its
rendered string) is the round-trip boundary. -/
structure StoreDoc where
  magic : String
  checksum : String
  entries : List StoreEntry
deriving DecidableEq

/-- Model of `Repo.flush_immediately` from store.py: `Store.on_update` (duplicate-id
scan, a hard error) followed by serialising the store with its recomputed
checksum. -/
def flush_immediately (hash : List StoreEntry → String) (s : FileStore) :
    Except NxError StoreDoc :=
  if (s.entries.map (fun e => e.id)).Nodup then
    .ok ⟨s.magic, checksum hash s, s.entries⟩
  else .error .duplicateEntry

/-- The entry loop of `load`: every entry must carry the known kind tag
`"torrent"`, otherwise `ValueError("unknown entry type")`. -/
def parse_entries : List StoreEntry → Except NxError (List StoreEntry)
  | [] => .ok []
  | e :: rest =>
    if e.type = "torrent" then
      match parse_entries rest with
      | .error err => .error err
      | .ok es => .ok (e :: es)
    else .error .unknownEntryType

/-- Model of `load` from store.py: check the magic marker, rebuild the entries,
recompute the checksum over the rebuilt store and compare with the
persisted one (`ignore_checksum` downgrades a mismatch to a warning). -/
def load (hash : List StoreEntry → String) (doc : StoreDoc)
    (ignore_checksum : Bool) : Except NxError FileStore :=
  if doc.magic ≠ MAGIC then .error .invalidMagic
  else
    match parse_entries doc.entries with
    | .error e => .error e
    | .ok entries =>
      if checksum hash ⟨entries, doc.magic⟩ = doc.checksum then
        .ok ⟨entries, doc.magic⟩
      else if ignore_checksum then .ok ⟨entries, doc.magic⟩
      else .error .checksumMismatch

lemma parse_entries_ok (l : List StoreEntry)
    (h : ∀ e ∈ l, e.type = "torrent") : parse_entries l = .ok l := by
  induction l with
  | nil => rfl
  | cons e rest ih =>
    have he : e.type = "torrent" := h e (by simp)
    have hrest : ∀ x ∈ rest, x.type = "torrent" := fun x hx => h x (by simp [hx])
    simp [parse_entries, he, ih hrest]

/-- C4: for every valid store (distinct ids, well-formed torrent entries,
the format's magic marker), flushing and loading back yields a store with
identical entries and an identical computed checksum. -/
theorem c4_roundtrip (hash : List StoreEntry → String) (s : FileStore)
    (hmagic : s.magic = MAGIC)
    (hnd : (s.entries.map (fun e => e.id)).Nodup)
    (htypes : ∀ e ∈ s.entries, e.type = "torrent") :
    ∃ doc s', flush_immediately hash s = .ok doc ∧
      load hash doc false = .ok s' ∧
      s'.entries = s.entries ∧ checksum hash s' = checksum hash s := by
  refine ⟨⟨s.magic, checksum hash s, s.entries⟩, ⟨s.entries, s.magic⟩,
    ?_, ?_, rfl, rfl⟩
  · simp [flush_immediately, hnd]
  · simp [load, hmagic, parse_entries_ok s.entries htypes, checksum]

/-- Concrete entries used in the store witnesses. -/
def wA : StoreEntry := ⟨"torrent", "A", [1], ⟨0, false, none⟩⟩

def wB : StoreEntry := ⟨"torrent", "B", [2], ⟨1, true, some 7⟩⟩

/-- Witness for C4 on a two-entry store. -/
theorem c4_roundtrip_witness :
    ∃ doc s',
      flush_immediately (fun l => String.join (l.map (fun e => e.id)))
          ⟨[wB, wA], MAGIC⟩ = .ok doc ∧
        load (fun l => String.join (l.map (fun e => e.id))) doc false =
          .ok s' ∧
        s'.entries = [wB, wA] ∧
        checksum (fun l => String.join (l.map (fun e => e.id))) s' =
          checksum (fun l => String.join (l.map (fun e => e.id)))
            ⟨[wB, wA], MAGIC⟩ :=
  c4_roundtrip (fun l => String.join (l.map (fun e => e.id)))
    ⟨[wB, wA], MAGIC⟩ rfl (by decide) (by decide)

lemma upsert_run_cons (x : StoreEntry) (rest : List StoreEntry)
    (e : StoreEntry) :
    upsert_run (x :: rest) e =
      if x.id = e.id then
        if x.type = e.type then (none, e :: rest)
        else (some NxError.kindMismatch, x :: rest)
      else ((upsert_run rest e).1, x :: (upsert_run rest e).2) := rfl

lemma upsert_run_not_found (e : StoreEntry) :
    ∀ (l : List StoreEntry), (∀ x ∈ l, x.id ≠ e.id) →
      upsert_run l e = (none, l ++ [e]) := by
  intro l
  induction l with
  | nil => intro _; rfl
  | cons x rest ih =>
    intro h
    have hx : x.id ≠ e.id := h x (by simp)
    rw [upsert_run_cons, if_neg hx, ih (fun y hy => h y (by simp [hy]))]
    simp

lemma upsert_run_found (e : StoreEntry) :
    ∀ (l₁ : List StoreEntry) (x : StoreEntry) (l₂ : List StoreEntry),
      (∀ y ∈ l₁, y.id ≠ e.id) → x.id = e.id →
      upsert_run (l₁ ++ x :: l₂) e =
        if x.type = e.type then (none, l₁ ++ e :: l₂)
        else (some NxError.kindMismatch, l₁ ++ x :: l₂) := by
  intro l₁
  induction l₁ with
  | nil =>
    intro x l₂ _ hx
    simp only [List.nil_append]
    rw [upsert_run_cons, if_pos hx]
  | cons y l₁ ih =>
    intro x l₂ h hx
    have hy : y.id ≠ e.id := h y (by simp)
    simp only [List.cons_append]
    rw [upsert_run_cons, if_neg hy,
      ih x l₂ (fun z hz => h z (by simp [hz])) hx]
    split <;> rfl

/-- C5: with pairwise-distinct ids, upserting an entry whose id matches an
existing entry replaces that entry at its position (same kind tag) keeping
the count unchanged, raises `kindMismatch` leaving the list untouched
(different kind tag), and appends (fresh id) growing the count by one. -/
theorem c5_upsert (l : List StoreEntry) (e : StoreEntry)
    (hnd : (l.map (fun x => x.id)).Nodup) :
    (∀ l₁ x l₂, l = l₁ ++ x :: l₂ → x.id = e.id →
       ((x.type = e.type →
          upsert_run l e = (none, l₁ ++ e :: l₂) ∧
            (l₁ ++ e :: l₂).length = l.length) ∧
        (x.type ≠ e.type →
          upsert_run l e = (some NxError.kindMismatch, l)))) ∧
      ((∀ x ∈ l, x.id ≠ e.id) →
        upsert_run l e = (none, l ++ [e]) ∧
          (l ++ [e]).length = l.length + 1) := by
  constructor
  · intro l₁ x l₂ hdecomp hx
    have hl₁ : ∀ y ∈ l₁, y.id ≠ e.id := by
      intro y hy hye
      have hnd' : (l₁.map (fun z => z.id) ++
          x.id :: l₂.map (fun z => z.id)).Nodup := by
        simpa [hdecomp] using hnd
      rw [List.nodup_append] at hnd'
      exact hnd'.2.2 (List.mem_map_of_mem _ hy) (by simp [hx, hye])
    constructor
    · intro htype
      subst hdecomp
      rw [upsert_run_found e l₁ x l₂ hl₁ hx, if_pos htype]
      simp
    · intro htype
      subst hdecomp
      rw [upsert_run_found e l₁ x l₂ hl₁ hx, if_neg htype]
  · intro h
    rw [upsert_run_not_found e l h]
    simp

/-- Additional witness entries: same-kind replacement, fresh id, and a
kind-changing entry for id `A`. -/
def wRep : StoreEntry := ⟨"torrent", "A", [9], ⟨2, true, some 3⟩⟩

def wNew : StoreEntry := ⟨"torrent", "C", [5], ⟨0, false, none⟩⟩

def wMis : StoreEntry := ⟨"magnet", "A", [4], ⟨0, false, none⟩⟩

/-- Witness for C5: on the store `[wA, wB]`, upserting `wRep` (same id,
same kind) replaces in place, upserting `wMis` (same id, different kind)
fails leaving the list unchanged, and upserting `wNew` (fresh id) appends. -/
theorem c5_upsert_witness :
    upsert_run [wA, wB] wRep = (none, [wRep, wB]) ∧
      upsert_run [wA, wB] wMis = (some NxError.kindMismatch, [wA, wB]) ∧
      upsert_run [wA, wB] wNew = (none, [wA, wB, wNew]) := by
  refine ⟨?_, ?_, ?_⟩
  · exact (((c5_upsert [wA, wB] wRep (by decide)).1 [] wA [wB] rfl
      (by decide)).1 (by decide)).1
  · exact ((c5_upsert [wA, wB] wMis (by decide)).1 [] wA [wB] rfl
      (by decide)).2 (by decide)
  · exact ((c5_upsert [wA, wB] wNew (by decide)).2 (by decide)).1

/-- Model of `Repo` from store.py: the in-memory store plus the checksum captured at
load time (or at the most recent flush). -/
structure Repo where
  store : FileStore
  checksum : String
deriving DecidableEq

/-- Model of `Repo.flush` from store.py: recompute the checksum; skip the write when
it matches the captured one, otherwise `flush_immediately` and update the
captured checksum.  The boolean records whether a write was performed. -/
def repo_flush (hash : List StoreEntry → String) (r : Repo) :
    Except NxError (Repo × Bool) :=
  if checksum hash r.store = r.checksum then .ok (r, false)
  else
    match flush_immediately hash r.store with
    | .error e => .error e
    | .ok _ => .ok (⟨r.store, checksum hash r.store⟩, true)

/-- Two consecutive `flush` calls with no intervening mutation, returning
the number of writes performed. -/
def flush_twice_writes (hash : List StoreEntry → String) (r : Repo) :
    Except NxError Nat :=
  match repo_flush hash r with
  | .error e => .error e
  | .ok (r1, w1) =>
    match repo_flush hash r1 with
    | .error e => .error e
    | .ok (_, w2) => .ok ((if w1 then 1 else 0) + (if w2 then 1 else 0))

/-- A hash instance and a clean repository (captured checksum equal to the
current one) for the C7 counterexample. -/
def c7hash : List StoreEntry → String := fun _ => "H"

def c7repo : Repo := ⟨⟨[], MAGIC⟩, "H"⟩

/-- C7 counterexample: on a repository with no mutation since load, two
consecutive `flush` calls perform ZERO writes, not exactly one. -/
theorem c7_counterexample :
    flush_twice_writes c7hash c7repo = .ok 0 ∧
      ¬ flush_twice_writes c7hash c7repo = .ok 1 := by
  constructor
  · rfl
  · intro h
    rw [show flush_twice_writes c7hash c7repo = .ok 0 from rfl] at h
    simp at h

/-- C7 (amended): `flush` writes only when the recomputed checksum differs
from the captured one; across two consecutive flushes with no intervening
mutation the second call is always a no-op, so at most one write happens —
exactly one iff the store was dirty at the first call. -/
theorem c7_flush (hash : List StoreEntry → String) (r : Repo) :
    (checksum hash r.store = r.checksum → repo_flush hash r = .ok (r, false)) ∧
      (∀ r1 w1, repo_flush hash r = .ok (r1, w1) →
        repo_flush hash r1 = .ok (r1, false) ∧
          (w1 = true ↔ checksum hash r.store ≠ r.checksum)) ∧
      (∀ n, flush_twice_writes hash r = .ok n → n ≤ 1) := by
  have hmain : ∀ r1 w1, repo_flush hash r = .ok (r1, w1) →
      repo_flush hash r1 = .ok (r1, false) ∧
        (w1 = true ↔ checksum hash r.store ≠ r.checksum) := by
    intro r1 w1 h
    by_cases hc : checksum hash r.store = r.checksum
    · rw [repo_flush, if_pos hc] at h
      obtain ⟨rfl, rfl⟩ : r = r1 ∧ false = w1 := by
        constructor <;> cases h <;> rfl
      refine ⟨by rw [repo_flush, if_pos hc], by simp [hc]⟩
    · rw [repo_flush, if_neg hc] at h
      cases hfi : flush_immediately hash r.store with
      | error e => rw [hfi] at h; cases h
      | ok doc =>
        rw [hfi] at h
        obtain ⟨rfl, rfl⟩ :
            (⟨r.store, checksum hash r.store⟩ : Repo) = r1 ∧ true = w1 := by
          constructor <;> cases h <;> rfl
        refine ⟨?_, by simp [hc]⟩
        rw [repo_flush, if_pos rfl]
  refine ⟨?_, hmain, ?_⟩
  · intro hc
    rw [repo_flush, if_pos hc]
  · intro n h
    rw [flush_twice_writes] at h
    cases h1 : repo_flush hash r with
    | error e =>
      rw [h1] at h
      simp at h
    | ok p =>
      obtain ⟨r1, w1⟩ := p
      have h2 := (hmain r1 w1 h1).1
      rw [h1] at h
      simp only [h2] at h
      cases w1 <;> simp_all
      all_goals omega

/-- A dirty repository (stale captured checksum) and its post-flush state
for the C7 witness. -/
def c7wrepo : Repo := ⟨⟨[], MAGIC⟩, "OLD"⟩

def c7wrepo1 : Repo := ⟨⟨[], MAGIC⟩, "H"⟩

/-- Witness for C7 (amended): a dirty repository writes on the first flush
and the second flush is a no-op. -/
theorem c7_flush_witness :
    repo_flush c7hash c7wrepo = .ok (c7wrepo1, true) ∧
      repo_flush c7hash c7wrepo1 = .ok (c7wrepo1, false) := by
  have h := ((c7_flush c7hash c7wrepo).2.1 c7wrepo1 true (by rfl)).1
  exact ⟨by rfl, h⟩

lemma sorted_perm_nodup_eq :
    ∀ (l₁ l₂ : List StoreEntry), l₁.Perm l₂ →
      List.Sorted entry_le l₁ → List.Sorted entry_le l₂ →
      (l₁.map (fun e => e.id)).Nodup → l₁ = l₂ := by
  intro l₁
  induction l₁ with
  | nil =>
    intro l₂ hperm _ _ _
    exact hperm.nil_eq
  | cons a t₁ ih =>
    intro l₂ hperm hs₁ hs₂ hnd
    cases l₂ with
    | nil => exact absurd hperm.symm (by simp)
    | cons b t₂ =>
      have hab : a = b := by
        rcases (hperm.mem_iff.mp (List.mem_cons_self a t₁)) with hmem
        rcases List.mem_cons.mp hmem with h | ha
        · exact h
        · have hb : b ∈ a :: t₁ :=
            hperm.symm.subset (List.mem_cons_self b t₂)
          rcases List.mem_cons.mp hb with h | hbt
          · exact h.symm
          · have h1 : entry_le a b :=
              (List.sorted_cons.mp hs₁).1 b hbt
            have h2 : entry_le b a :=
              (List.sorted_cons.mp hs₂).1 a ha
            have hid : a.id = b.id := le_antisymm h1 h2
            exfalso
            have : a.id ∈ t₁.map (fun e => e.id) := by
              rw [hid]
              exact List.mem_map_of_mem _ hbt
            exact (List.nodup_cons.mp (by simpa using hnd)).1 this
      subst hab
      have htail : t₁.Perm t₂ := hperm.cons_inv
      have := ih t₂ htail (List.sorted_cons.mp hs₁).2
        (List.sorted_cons.mp hs₂).2
        (List.nodup_cons.mp (by simpa using hnd)).2
      rw [this]

/-- C9: with pairwise-distinct ids the computed checksum is invariant under
any permutation of the entry list (entries are sorted by id before
hashing); consequently a repository whose entries were merely reordered
since load recomputes the same checksum and `flush` skips the write. -/
theorem c9_checksum_perm (hash : List StoreEntry → String) (m : String)
    (l₁ l₂ : List StoreEntry) (hperm : l₁.Perm l₂)
    (hnd : (l₁.map (fun e => e.id)).Nodup) :
    checksum hash ⟨l₁, m⟩ = checksum hash ⟨l₂, m⟩ ∧
      repo_flush hash ⟨⟨l₂, m⟩, checksum hash ⟨l₁, m⟩⟩ =
        .ok (⟨⟨l₂, m⟩, checksum hash ⟨l₁, m⟩⟩, false) := by
  have hsort : sort_entries l₁ = sort_entries l₂ := by
    apply sorted_perm_nodup_eq
    · exact ((List.perm_insertionSort entry_le l₁).trans hperm).trans
        (List.perm_insertionSort entry_le l₂).symm
    · exact List.sorted_insertionSort entry_le l₁
    · exact List.sorted_insertionSort entry_le l₂
    · have hp : ((List.insertionSort entry_le l₁).map (fun e => e.id)).Perm
          (l₁.map (fun e => e.id)) :=
        (List.perm_insertionSort entry_le l₁).map _
      exact hp.nodup_iff.mpr hnd
  have hck : checksum hash ⟨l₁, m⟩ = checksum hash ⟨l₂, m⟩ := by
    simp only [checksum]
    rw [hsort]
  refine ⟨hck, ?_⟩
  rw [repo_flush, if_pos hck.symm]

/-- Witness for C9: reordering the two-entry store does not change the
checksum and flushing the reordered repository skips the write. -/
theorem c9_checksum_perm_witness :
    checksum (fun l => String.join (l.map (fun e => e.id)))
        ⟨[wA, wB], MAGIC⟩ =
      checksum (fun l => String.join (l.map (fun e => e.id)))
        ⟨[wB, wA], MAGIC⟩ ∧
      repo_flush (fun l => String.join (l.map (fun e => e.id)))
          ⟨⟨[wB, wA], MAGIC⟩,
            checksum (fun l => String.join (l.map (fun e => e.id)))
              ⟨[wA, wB], MAGIC⟩⟩ =
        .ok (⟨⟨[wB, wA], MAGIC⟩,
          checksum (fun l => String.join (l.map (fun e => e.id)))
            ⟨[wA, wB], MAGIC⟩⟩, false) :=
  c9_checksum_perm (fun l => String.join (l.map (fun e => e.id))) MAGIC
    [wA, wB] [wB, wA] (List.Perm.swap wB wA []) (by decide)

/-- The descriptor fields `verify_pieces` consumes from the parsed torrent:
the declared files, `num_pieces`, the fixed `piece_length`, the per-index
`piece_size` (shorter for the final piece), and the per-index 20-byte
`hash_for_piece`.  The two accessors are opaque functions, as in §6 of the
spec. -/
structure TorrentD where
  files : List File
  pc : Nat
  piece_length : Nat
  piece_size : Nat → Nat
  expected_hash : Nat → List Nat

/-- One read issued through the file reader (path and byte range) —
instrumentation recording that file bytes were consumed. -/
structure ReadEvent where
  path : List String
  rstart : Nat
  rstop : Nat
deriving DecidableEq

/-- The inner loop of a single piece in `verify_pieces`: for every
`(file, range)` emitted by `get_piece_refs`, strip the path (the same
too-short check as `_match_files`, raising `ValueError`), append zero bytes
for a padding file, otherwise read the range through the file reader.
Returns the assembled buffer, the final reader state, and the trace of
reads performed. -/
def assemble_piece (fs : FS) (save_path : List String)
    (strip_components : Nat) :
    List (File × Nat × Nat) → List CacheEntry →
      Except NxError (List Nat × List CacheEntry × List ReadEvent)
  | [], st => .ok ([], st, [])
  | (f, bs, be) :: rest, st =>
    match strip_path f.path strip_components with
    | .error e => .error e
    | .ok sp =>
      if is_padding sp then
        match assemble_piece fs save_path strip_components rest st with
        | .error e => .error e
        | .ok (buf, st', tr) =>
          .ok (List.replicate (be - bs) 0 ++ buf, st', tr)
      else
        match assemble_piece fs save_path strip_components rest
            (reader_read fs st (save_path ++ sp) bs be).2 with
        | .error e => .error e
        | .ok (buf, st', tr) =>
          .ok ((reader_read fs st (save_path ++ sp) bs be).1 ++ buf, st',
            ⟨save_path ++ sp, bs, be⟩ :: tr)

/-- The piece loop of `verify_pieces`: per index, assemble the piece
buffer, truncate to the piece size, hash and compare; on mismatch bump the
bad-piece and bad-byte counters and continue with the next index. -/
def verify_loop (hash : List Nat → List Nat) (fs : FS) (t : TorrentD)
    (save_path : List String) (strip_components : Nat) :
    List Nat → Nat → Nat → List CacheEntry → List ReadEvent →
      Except NxError (Nat × Nat × List ReadEvent)
  | [], bad_pc, bad_sz, _, tr => .ok (bad_pc, bad_sz, tr)
  | idx :: rest, bad_pc, bad_sz, st, tr =>
    match assemble_piece fs save_path strip_components
        (get_piece_refs t.files (idx * t.piece_length) (t.piece_size idx))
        st with
    | .error e => .error e
    | .ok (buf, st', tr') =>
      if hash (buf.take (t.piece_size idx)) = t.expected_hash idx then
        verify_loop hash fs t save_path strip_components rest
          bad_pc bad_sz st' (tr ++ tr')
      else
        verify_loop hash fs t save_path strip_components rest
          (bad_pc + 1) (bad_sz + t.piece_size idx) st' (tr ++ tr')

/-- Model of `verify_pieces` from nx.py: run the match check first and return
`False` with no reads when it is not ok; otherwise scan every piece index
with a fresh reader and return `bad_pc == 0` (`hash` abstracts SHA-1). -/
def verify_pieces (hash : List Nat → List Nat) (fs : FS) (t : TorrentD)
    (save_path : List String) (strip_components : Nat) :
    Except NxError (Bool × List ReadEvent) :=
  match match_files fs t.files save_path strip_components with
  | .error e => .error e
  | .ok mr =>
    if mr.ok then
      match verify_loop hash fs t save_path strip_components
          (List.range t.pc) 0 0 [] [] with
      | .error e => .error e
      | .ok (bad_pc, _, tr) => .ok (decide (bad_pc = 0), tr)
    else .ok (false, [])

/-- Spec-side reconstruction of one piece's bytes (the concatenation, in
emission order, of zero bytes for padding files and on-disk slices for the
rest, truncated to the piece size). -/
def piece_bytes (fs : FS) (t : TorrentD) (save_path : List String)
    (strip_components : Nat) (idx : Nat) : List Nat :=
  (((get_piece_refs t.files (idx * t.piece_length) (t.piece_size idx)).map
      (fun x =>
        if is_padding (x.1.path.drop strip_components) then
          List.replicate (x.2.2 - x.2.1) 0
        else
          read_bytes fs (save_path ++ x.1.path.drop strip_components)
            x.2.1 x.2.2)).flatten).take (t.piece_size idx)

/-- Spec-side bad-piece count: the number of piece indices whose
reconstructed bytes hash differently from the declared digest. -/
def bad_piece_count (hash : List Nat → List Nat) (fs : FS) (t : TorrentD)
    (save_path : List String) (strip_components : Nat) : Nat :=
  ((List.range t.pc).filter
    (fun i => hash (piece_bytes fs t save_path strip_components i) ≠
      t.expected_hash i)).length

lemma strip_path_ok_eq {parts : List String} {n : Nat} {sp : List String}
    (h : strip_path parts n = .ok sp) : sp = parts.drop n := by
  unfold strip_path at h
  split_ifs at h <;> simp_all

lemma strip_path_ok_length {parts : List String} {n : Nat}
    {sp : List String} (h : strip_path parts n = .ok sp) (hn : 0 < n) :
    n < parts.length := by
  unfold strip_path at h
  split_ifs at h with h0 h1
  · omega
  · omega

lemma match_files_go_cons (fs : FS) (save_path : List String) (n : Nat)
    (f : File) (rest : List File) (acc : MatchFilesResult) :
    match_files_go fs save_path n (f :: rest) acc =
      match strip_path f.path n with
      | .error e => .error e
      | .ok sp =>
        if is_padding sp then match_files_go fs save_path n rest acc
        else
          if fs.fexists (save_path ++ sp) = false then
            match_files_go fs save_path n rest
              { acc with missing := acc.missing ++ [f.path] }
          else if fs.is_file (save_path ++ sp) then
            match_files_go fs save_path n rest
              { acc with found := acc.found ++ [f.path] }
          else
            match_files_go fs save_path n rest
              { acc with error := acc.error ++ [f.path] } := rfl

lemma match_files_go_cons_err (fs : FS) (save_path : List String) (n : Nat)
    (f : File) (rest : List File) (acc : MatchFilesResult) (e : NxError)
    (hsp : strip_path f.path n = .error e) :
    match_files_go fs save_path n (f :: rest) acc = .error e := by
  rw [match_files_go_cons, hsp]

lemma match_files_go_cons_ok (fs : FS) (save_path : List String) (n : Nat)
    (f : File) (rest : List File) (acc : MatchFilesResult) (sp : List String)
    (hsp : strip_path f.path n = .ok sp) :
    match_files_go fs save_path n (f :: rest) acc =
      if is_padding sp then match_files_go fs save_path n rest acc
      else
        if fs.fexists (save_path ++ sp) = false then
          match_files_go fs save_path n rest
            { acc with missing := acc.missing ++ [f.path] }
        else if fs.is_file (save_path ++ sp) then
          match_files_go fs save_path n rest
            { acc with found := acc.found ++ [f.path] }
        else
          match_files_go fs save_path n rest
            { acc with error := acc.error ++ [f.path] } := by
  rw [match_files_go_cons, hsp]

lemma match_files_go_strip (fs : FS) (save_path : List String) (n : Nat) :
    ∀ (files : List File) (acc mr : MatchFilesResult),
      match_files_go fs save_path n files acc = .ok mr →
      ∀ f ∈ files, strip_path f.path n = .ok (f.path.drop n) := by
  intro files
  induction files with
  | nil => intro _ _ _ f hf; cases hf
  | cons f rest ih =>
    intro acc mr h g hg
    cases hsp : strip_path f.path n with
    | error e =>
      rw [match_files_go_cons_err fs save_path n f rest acc e hsp] at h
      cases h
    | ok sp =>
      rw [match_files_go_cons_ok fs save_path n f rest acc sp hsp] at h
      have hhead : strip_path f.path n = .ok (f.path.drop n) := by
        rw [hsp, strip_path_ok_eq hsp]
      rcases List.mem_cons.mp hg with rfl | hg'
      · exact hhead
      · by_cases hp : is_padding sp
        · rw [if_pos hp] at h
          exact ih _ _ h g hg'
        · rw [if_neg hp] at h
          by_cases he : fs.fexists (save_path ++ sp) = false
          · rw [if_pos he] at h
            exact ih _ _ h g hg'
          · rw [if_neg he] at h
            by_cases hif : fs.is_file (save_path ++ sp) = true
            · rw [if_pos hif] at h
              exact ih _ _ h g hg'
            · rw [if_neg hif] at h
              exact ih _ _ h g hg'

lemma match_files_strip (fs : FS) (files : List File)
    (save_path : List String) (n : Nat) (mr : MatchFilesResult)
    (h : match_files fs files save_path n = .ok mr) :
    ∀ f ∈ files, strip_path f.path n = .ok (f.path.drop n) :=
  match_files_go_strip fs save_path n files ⟨[], [], []⟩ mr h

lemma mem_get_piece_refs {x : File × Nat × Nat} {files : List File}
    {po ps : Nat} (hx : x ∈ get_piece_refs files po ps) : x.1 ∈ files := by
  simp only [get_piece_refs, List.mem_filterMap] at hx
  obtain ⟨f, hf, heq⟩ := hx
  split at heq
  · cases heq
  · cases heq
    exact hf

lemma assemble_piece_cons (fs : FS) (save_path : List String) (n : Nat)
    (f : File) (bs be : Nat) (rest : List (File × Nat × Nat))
    (st : List CacheEntry) :
    assemble_piece fs save_path n ((f, bs, be) :: rest) st =
      match strip_path f.path n with
      | .error e => .error e
      | .ok sp =>
        if is_padding sp then
          match assemble_piece fs save_path n rest st with
          | .error e => .error e
          | .ok (buf, st', tr) =>
            .ok (List.replicate (be - bs) 0 ++ buf, st', tr)
        else
          match assemble_piece fs save_path n rest
              (reader_read fs st (save_path ++ sp) bs be).2 with
          | .error e => .error e
          | .ok (buf, st', tr) =>
            .ok ((reader_read fs st (save_path ++ sp) bs be).1 ++ buf, st',
              ⟨save_path ++ sp, bs, be⟩ :: tr) := rfl

lemma reader_read_fst (fs : FS) (st : List CacheEntry) (p : List String)
    (s e : Nat) : (reader_read fs st p s e).1 = read_bytes fs p s e := rfl

lemma assemble_piece_cons_ok (fs : FS) (save_path : List String) (n : Nat)
    (f : File) (bs be : Nat) (rest : List (File × Nat × Nat))
    (st : List CacheEntry) (sp : List String)
    (hsp : strip_path f.path n = .ok sp) :
    assemble_piece fs save_path n ((f, bs, be) :: rest) st =
      if is_padding sp then
        match assemble_piece fs save_path n rest st with
        | .error e => .error e
        | .ok (buf, st', tr) =>
          .ok (List.replicate (be - bs) 0 ++ buf, st', tr)
      else
        match assemble_piece fs save_path n rest
            (reader_read fs st (save_path ++ sp) bs be).2 with
        | .error e => .error e
        | .ok (buf, st', tr) =>
          .ok ((reader_read fs st (save_path ++ sp) bs be).1 ++ buf, st',
            ⟨save_path ++ sp, bs, be⟩ :: tr) := by
  rw [assemble_piece_cons, hsp]

lemma assemble_piece_ok (fs : FS) (save_path : List String) (n : Nat) :
    ∀ (refs : List (File × Nat × Nat)),
      (∀ x ∈ refs, strip_path x.1.path n = .ok (x.1.path.drop n)) →
      ∀ st, ∃ st' tr,
        assemble_piece fs save_path n refs st =
          .ok ((refs.map (fun x =>
            if is_padding (x.1.path.drop n) then
              List.replicate (x.2.2 - x.2.1) 0
            else
              read_bytes fs (save_path ++ x.1.path.drop n)
                x.2.1 x.2.2)).flatten, st', tr) := by
  intro refs
  induction refs with
  | nil =>
    intro _ st
    exact ⟨st, [], rfl⟩
  | cons x rest ih =>
    intro h st
    obtain ⟨f, bs, be⟩ := x
    have hf : strip_path f.path n = .ok (f.path.drop n) := h (f, bs, be) (by simp)
    have hrest : ∀ y ∈ rest, strip_path y.1.path n = .ok (y.1.path.drop n) :=
      fun y hy => h y (by simp [hy])
    rw [assemble_piece_cons_ok fs save_path n f bs be rest st _ hf]
    by_cases hp : is_padding (f.path.drop n)
    · rw [if_pos hp]
      obtain ⟨st', tr, hrec⟩ := ih hrest st
      refine ⟨st', tr, ?_⟩
      rw [hrec]
      simp [hp]
    · rw [if_neg hp]
      obtain ⟨st', tr, hrec⟩ :=
        ih hrest (reader_read fs st (save_path ++ f.path.drop n) bs be).2
      refine ⟨st', ⟨save_path ++ f.path.drop n, bs, be⟩ :: tr, ?_⟩
      rw [hrec]
      simp [hp, reader_read_fst]

lemma verify_loop_cons (hash : List Nat → List Nat) (fs : FS) (t : TorrentD)
    (save_path : List String) (n : Nat) (idx : Nat) (rest : List Nat)
    (bad_pc bad_sz : Nat) (st : List CacheEntry) (tr : List ReadEvent)
    (buf : List Nat) (st' : List CacheEntry) (tr' : List ReadEvent)
    (hasm : assemble_piece fs save_path n
      (get_piece_refs t.files (idx * t.piece_length) (t.piece_size idx)) st =
        .ok (buf, st', tr')) :
    verify_loop hash fs t save_path n (idx :: rest) bad_pc bad_sz st tr =
      if hash (buf.take (t.piece_size idx)) = t.expected_hash idx then
        verify_loop hash fs t save_path n rest bad_pc bad_sz st' (tr ++ tr')
      else
        verify_loop hash fs t save_path n rest (bad_pc + 1)
          (bad_sz + t.piece_size idx) st' (tr ++ tr') := by
  rw [verify_loop, hasm]

lemma verify_loop_ok (hash : List Nat → List Nat) (fs : FS) (t : TorrentD)
    (save_path : List String) (n : Nat)
    (hstrip : ∀ f ∈ t.files, strip_path f.path n = .ok (f.path.drop n)) :
    ∀ (idxs : List Nat) (bad_pc bad_sz : Nat) (st : List CacheEntry)
      (tr : List ReadEvent),
      ∃ bsz tr', verify_loop hash fs t save_path n idxs bad_pc bad_sz st tr =
        .ok (bad_pc + (idxs.filter (fun i =>
            hash (piece_bytes fs t save_path n i) ≠ t.expected_hash i)).length,
          bsz, tr') := by
  intro idxs
  induction idxs with
  | nil =>
    intro bad_pc bad_sz st tr
    exact ⟨bad_sz, tr, by simp [verify_loop]⟩
  | cons idx rest ih =>
    intro bad_pc bad_sz st tr
    have hrefs : ∀ x ∈ get_piece_refs t.files (idx * t.piece_length)
        (t.piece_size idx), strip_path x.1.path n = .ok (x.1.path.drop n) :=
      fun x hx => hstrip x.1 (mem_get_piece_refs hx)
    obtain ⟨st', tr', hasm⟩ :=
      assemble_piece_ok fs save_path n _ hrefs st
    by_cases hh : hash (piece_bytes fs t save_path n idx) = t.expected_hash idx
    · obtain ⟨bsz, tr'', hrec⟩ := ih bad_pc bad_sz st' (tr ++ tr')
      refine ⟨bsz, tr'', ?_⟩
      rw [verify_loop_cons hash fs t save_path n idx rest bad_pc bad_sz st tr
        _ _ _ hasm]
      rw [if_pos (by simpa [piece_bytes] using hh), hrec]
      rw [List.filter_cons_of_neg (by simp [hh])]
    · obtain ⟨bsz, tr'', hrec⟩ :=
        ih (bad_pc + 1) (bad_sz + t.piece_size idx) st' (tr ++ tr')
      refine ⟨bsz, tr'', ?_⟩
      rw [verify_loop_cons hash fs t save_path n idx rest bad_pc bad_sz st tr
        _ _ _ hasm]
      rw [if_neg (by simpa [piece_bytes] using hh), hrec]
      rw [List.filter_cons_of_pos (by simp [hh])]
      have harith : bad_pc + 1 + (rest.filter (fun i =>
          hash (piece_bytes fs t save_path n i) ≠ t.expected_hash i)).length =
        bad_pc + ((rest.filter (fun i =>
          hash (piece_bytes fs t save_path n i) ≠
            t.expected_hash i)).length + 1) := by omega
      rw [harith]
      simp

/-- C1: whenever the pre-flight match check returns a result, a not-ok
result makes `verify_pieces` return `False` immediately with an empty read
trace (no file bytes consumed); an ok result makes it process every piece
index without aborting, returning `True` iff the number of pieces whose
digest of the reassembled bytes differs from the declared hash is zero. -/
theorem c1_verify (hash : List Nat → List Nat) (fs : FS) (t : TorrentD)
    (save_path : List String) (strip_components : Nat)
    (mr : MatchFilesResult)
    (hm : match_files fs t.files save_path strip_components = .ok mr) :
    (mr.ok = false →
      verify_pieces hash fs t save_path strip_components = .ok (false, [])) ∧
      (mr.ok = true →
        ∃ tr, verify_pieces hash fs t save_path strip_components =
          .ok (decide
            (bad_piece_count hash fs t save_path strip_components = 0), tr)) := by
  have hunfold : verify_pieces hash fs t save_path strip_components =
      if mr.ok then
        match verify_loop hash fs t save_path strip_components
            (List.range t.pc) 0 0 [] [] with
        | .error e => .error e
        | .ok (bad_pc, _, tr) => .ok (decide (bad_pc = 0), tr)
      else .ok (false, []) := by
    rw [verify_pieces, hm]
  constructor
  · intro hok
    rw [hunfold, if_neg (by simp [hok])]
  · intro hok
    have hstrip := match_files_strip fs t.files save_path strip_components mr hm
    obtain ⟨bsz, tr, hloop⟩ :=
      verify_loop_ok hash fs t save_path strip_components hstrip
        (List.range t.pc) 0 0 [] []
    rw [Nat.zero_add] at hloop
    refine ⟨tr, ?_⟩
    rw [hunfold, if_pos (by simp [hok]), hloop]
    rfl

/-- Concrete single-file descriptor and filesystem for the C1 witness: one
4-byte file at the save path `d`, one piece, identity hash. -/
def c1t : TorrentD := ⟨[⟨0, 4, ["a"]⟩], 1, 4, fun _ => 4, fun _ => [1, 2, 3, 4]⟩

def c1fs : FS :=
  ⟨fun _ => true, fun _ => true,
    fun p => if p = ["d", "a"] then [1, 2, 3, 4] else []⟩

/-- Witness for C1: the match check succeeds and is ok, and verification
reports `bad_piece_count = 0`. -/
theorem c1_verify_witness :
    ∃ tr, verify_pieces (fun l => l) c1fs c1t ["d"] 0 =
      .ok (decide (bad_piece_count (fun l => l) c1fs c1t ["d"] 0 = 0), tr) :=
  (c1_verify (fun l => l) c1fs c1t ["d"] 0 ⟨[["a"]], [], []⟩ rfl).2 rfl

/-- C10: once the match phase has returned a result (it iterates every
declared file and raises the too-short error itself before any piece is
processed), every file emitted by `get_piece_refs` for any piece has
strictly more path components than `strip_components`, and the piece-loop
assembly never hits its path-too-short error branch — it always returns
`ok`. -/
theorem c10_no_path_error (fs : FS) (t : TorrentD) (save_path : List String)
    (strip_components : Nat) (mr : MatchFilesResult)
    (hm : match_files fs t.files save_path strip_components = .ok mr) :
    ∀ piece_offset piece_sz (st : List CacheEntry),
      (∀ x ∈ get_piece_refs t.files piece_offset piece_sz,
        0 < strip_components → strip_components < x.1.path.length) ∧
      ∃ out, assemble_piece fs save_path strip_components
          (get_piece_refs t.files piece_offset piece_sz) st = .ok out := by
  intro piece_offset piece_sz st
  have hstrip := match_files_strip fs t.files save_path strip_components mr hm
  have hrefs : ∀ x ∈ get_piece_refs t.files piece_offset piece_sz,
      strip_path x.1.path strip_components = .ok (x.1.path.drop strip_components) :=
    fun x hx => hstrip x.1 (mem_get_piece_refs hx)
  constructor
  · intro x hx hn
    exact strip_path_ok_length (hrefs x hx) hn
  · obtain ⟨st', tr, h⟩ :=
      assemble_piece_ok fs save_path strip_components _ hrefs st
    exact ⟨_, h⟩

/-- Concrete two-component-path descriptor for the C10 witness, verified
with `strip_components = 1`. -/
def c10t : TorrentD :=
  ⟨[⟨0, 4, ["r", "a"]⟩], 1, 4, fun _ => 4, fun _ => [1, 2, 3, 4]⟩

def c10fs : FS :=
  ⟨fun _ => true, fun _ => true,
    fun p => if p = ["d", "a"] then [1, 2, 3, 4] else []⟩

/-- Witness for C10 on the concrete descriptor: the emitted file's path has
more than one component and piece assembly succeeds. -/
theorem c10_no_path_error_witness :
    (∀ x ∈ get_piece_refs c10t.files 0 4, 0 < 1 → 1 < x.1.path.length) ∧
      ∃ out, assemble_piece c10fs ["d"] 1
        (get_piece_refs c10t.files 0 4) [] = .ok out :=
  c10_no_path_error c10fs c10t ["d"] 1 ⟨[["r", "a"]], [], []⟩ rfl 0 4 []

end Nx
